import Mathlib

/-!
Verification of the uniformly-controlled-gate (UCG) decomposer and the
unitary-synthesis pass of this repository.

The development shallowly embeds:
* `qiskit/extensions/quantum_initializer/ucg.py`: the matrix utilities
  (`_ct`, `_h`, `_rz`, `_is_isometry`), the input validation of
  `UCG.__init__` and of the `ucg` circuit entry point, the single-qubit
  demultiplexer `UCG._demultiplex_single_uc`, and the circuit-assembly
  loop of `UCG._dec_ucg`;
* `qiskit/transpiler/passes/synthesis/unitary_synthesis.py`: the basis
  selectors `_choose_kak_gate` / `_choose_euler_basis` and the per-node
  direction / fidelity / dispatch logic of `UnitarySynthesis.run`.

Exact-arithmetic conventions: the numerically tolerant float checks of the
source are embedded over the rationals (comparisons of Frobenius norms are
carried out on their squares, which is equivalent for non-negative
tolerances), and the exact complex algebra of the demultiplexer is embedded
over `ℂ`, with the external eigensolver `np.linalg.eig` modelled by
hypotheses stating its documented contract (columns are unit-norm
eigenvectors, the returned values are the roots of the characteristic
polynomial).
-/

namespace QiskitUCG

/-! ## Rational complex numbers and rectangular matrices

The input-validation code of `ucg.py` works on numpy arrays of complex
floats.  We embed the matrices it validates as rectangular lists of
complex numbers with rational real and imaginary parts, so that every
check is computable and decidable. -/

/-- A complex number with rational real and imaginary parts. -/
structure QC where
  re : ℚ
  im : ℚ
deriving DecidableEq, Repr

namespace QC

def add (x y : QC) : QC := ⟨x.re + y.re, x.im + y.im⟩

def sub (x y : QC) : QC := ⟨x.re - y.re, x.im - y.im⟩

def mul (x y : QC) : QC := ⟨x.re * y.re - x.im * y.im, x.re * y.im + x.im * y.re⟩

/-- Complex conjugate (`np.conjugate`). -/
def conj (x : QC) : QC := ⟨x.re, -x.im⟩

/-- Squared modulus of a complex entry. -/
def normSq (x : QC) : ℚ := x.re * x.re + x.im * x.im

instance : Zero QC := ⟨⟨0, 0⟩⟩
instance : One QC := ⟨⟨1, 0⟩⟩
instance : Add QC := ⟨add⟩
instance : Sub QC := ⟨sub⟩
instance : Mul QC := ⟨mul⟩

end QC

/-- A matrix as a list of rows (the embedding of a 2-d numpy array). -/
abbrev QMat := List (List QC)

namespace QMat

/-- Number of rows (`m.shape[0]`). -/
def rows (m : QMat) : ℕ := m.length

/-- Number of columns (`m.shape[1]`); numpy arrays are rectangular, so the
length of the first row is the common row length. -/
def cols (m : QMat) : ℕ := (m.headD []).length

/-- `m` has shape `(r, c)`: `r` rows, each of length `c`. -/
def hasShape (m : QMat) (r c : ℕ) : Bool :=
  m.length = r && m.all (fun row => row.length = c)

/-- Dot product of two rows (missing entries are zero-padded; on
well-shaped rectangular input both lists have equal length). -/
def dot (xs ys : List QC) : QC := (List.zipWith QC.mul xs ys).foldr QC.add 0

/-- Transpose (`np.transpose`). -/
def transposeM (m : QMat) : QMat :=
  (List.range (cols m)).map (fun j => m.map (fun row => row.getD j 0))

/-- Conjugate transpose: `np.transpose(np.conjugate(m))`, the source's `_ct`. -/
def ctM (m : QMat) : QMat := transposeM (m.map (fun row => row.map QC.conj))

/-- Matrix product `np.dot`. -/
def matMul (a b : QMat) : QMat :=
  a.map (fun ra => (transposeM b).map (fun cb => dot ra cb))

/-- Elementwise difference. -/
def matSub (a b : QMat) : QMat := List.zipWith (fun ra rb => List.zipWith QC.sub ra rb) a b

/-- Identity matrix `np.eye(n, n)`. -/
def eyeQ (n : ℕ) : QMat :=
  (List.range n).map (fun i => (List.range n).map (fun j => if i = j then 1 else 0))

/-- Squared Frobenius norm: `np.linalg.norm(m) ** 2`, the sum of the squared
moduli of all entries. -/
def frobSq (m : QMat) : ℚ := (m.map (fun row => (row.map QC.normSq).sum)).sum

end QMat

open QMat

/-- The source's global tolerance `_EPS = 1e-10`. -/
def EPSq : ℚ := 1 / 10 ^ 10

/-- The squared Frobenius norm of `M†M - I` computed by `_is_isometry`:
`np.linalg.norm(np.dot(np.transpose(np.conj(m)), m) - np.eye(m.shape[1], m.shape[1])) ** 2`. -/
def isometryErr2 (m : QMat) : ℚ :=
  frobSq (matSub (matMul (ctM m) m) (eyeQ (cols m)))

/-- Embedding of `_is_isometry(m, eps)`:
`math.isclose(err, 0, abs_tol=eps)` with the default `rel_tol=1e-9`, i.e.
`err <= max(1e-9 * err, eps)` for the non-negative float `err`.
Since `err = sqrt (isometryErr2 m) >= 0`, that condition is equivalent to
`err <= 1e-9 * err \/ (0 <= eps /\ err <= eps)`, and comparing the
non-negative sides after squaring gives the decidable rational test below. -/
def _is_isometry (m : QMat) (eps : ℚ) : Bool :=
  decide (isometryErr2 m ≤ (1 / 10 ^ 9) ^ 2 * isometryErr2 m) ||
    (decide ((0:ℚ) ≤ eps) && decide (isometryErr2 m ≤ eps ^ 2))

/-- `n` is a power of two.  The source tests this with
`num_contr = math.log2(len(gate_list)); num_contr < 0 or not num_contr.is_integer()`,
which for the list lengths representable here holds exactly when the length
is `2 ^ j` for some `j`. -/
def isPow2 : ℕ → Bool
  | 0 => false
  | 1 => true
  | (n + 2) => (n + 2) % 2 = 0 && isPow2 ((n + 2) / 2)

/-- A constructed `UCG` gate: the validated gate list together with the
`up_to_diagonal` flag (the data stored by `UCG.__init__` via
`super().__init__` and `self.up_to_diagonal`). -/
structure UCGGate where
  gate_list : List QMat
  num_qubits : ℕ
  up_to_diagonal : Bool
deriving DecidableEq

/-- Embedding of `UCG.__init__(gate_list, up_to_diagonal)`: the checks are
performed in source order, and only when all of them pass is a gate object
created.  `Except.error` carries the message of the `QiskitError` raised. -/
def UCG_init (gate_list : List QMat) (up_to_diagonal : Bool) : Except String UCGGate :=
  -- for gate in gate_list: if not gate.shape == (2, 2): raise
  if ¬ gate_list.all (fun g => hasShape g 2 2) then
    .error "The dimension of a controlled gate is not equal to (2,2)."
  -- if len(gate_list) == 0: raise
  else if gate_list.length = 0 then
    .error "The gate list cannot be empty."
  -- num_contr = math.log2(len(gate_list)); if num_contr < 0 or not num_contr.is_integer(): raise
  else if ¬ isPow2 gate_list.length then
    .error "The number of controlled single-qubit gates is not a non negative power of 2."
  -- for gate in gate_list: if not _is_isometry(gate, _EPS): raise
  else if ¬ gate_list.all (fun g => _is_isometry g EPSq) then
    .error "A controlled gate is not unitary."
  else
    .ok ⟨gate_list, Nat.log2 gate_list.length + 1, up_to_diagonal⟩

/-- Embedding of the `QuantumCircuit.ucg` entry point.  The qubit arguments
are qubit indices; on success the result is the constructed gate together
with the qubit list `[q_target] + q_controls` passed to `self.append`. -/
def ucg (gate_list : List QMat) (q_controls : List ℕ) (q_target : ℕ)
    (up_to_diagonal : Bool) : Except String (UCGGate × List ℕ) :=
  -- num_contr = math.log2(len(gate_list)): math.log2(0) raises ValueError
  if gate_list.length = 0 then
    .error "ValueError: math domain error"
  -- if num_contr < 0 or not num_contr.is_integer(): raise
  else if ¬ isPow2 gate_list.length then
    .error "The number of controlled single-qubit gates is not a non negative power of 2."
  -- if num_contr != len(q_controls): raise
  else if Nat.log2 gate_list.length ≠ q_controls.length then
    .error "Number of controlled gates does not correspond to the number of control-qubits."
  else
    (UCG_init gate_list up_to_diagonal).map (fun g => (g, q_target :: q_controls))

/-- Whether an `Except` result is an error (a raised exception). -/
def isError {ε α : Type} : Except ε α → Bool
  | .error _ => true
  | .ok _ => false

end QiskitUCG

namespace QiskitSynth

/-! ## The unitary-synthesis pass

Embedding of `unitary_synthesis.py`.  Durations and errors reported by
`BackendProperties` are rationals; a lookup that would raise
`BackendPropertyError` is modelled by `none`. -/

/-- The keys of `kak_gate_names` in `_choose_kak_gate`, in the dictionary's
insertion order. -/
def kakGateNames : List String := ["cx", "cz", "iswap", "rxx", "ecr"]

/-- Embedding of `_choose_kak_gate(basis_gates)`.
The source forms `set(basis_gates or []).intersection(kak_gate_names.keys())`
and, when the intersection is non-empty, returns `kak_gates.pop()` — an
arbitrary element determined by the hash-dependent iteration order of the
CPython set.  That iteration order is made explicit here as `setOrder`: the
pop returns the first member of the intersection in `setOrder`.  (When the
intersection is contained in `setOrder`, the result is `none` exactly when
the intersection is empty.) -/
def _choose_kak_gate (setOrder : List String) (basis_gates : List String) : Option String :=
  setOrder.find? (fun g => basis_gates.contains g && kakGateNames.contains g)

/-- The `euler_basis_names` table of `_choose_euler_basis`, in the
dictionary's insertion order. -/
def eulerBasisNames : List (String × List String) :=
  [("U3", ["u3"]), ("U1X", ["u1", "rx"]), ("RR", ["r"]),
   ("ZYZ", ["rz", "ry"]), ("ZXZ", ["rz", "rx"]), ("XYX", ["rx", "ry"])]

/-- Embedding of `_choose_euler_basis(basis_gates)`: the first label whose
required gate names are all contained in the requested basis set (dict
iteration in Python 3.7+ is insertion order, so the preference order is
the order of `eulerBasisNames`). -/
def _choose_euler_basis (basis_gates : List String) : Option String :=
  (eulerBasisNames.find? (fun e => e.2.all (fun g => basis_gates.contains g))).map
    (fun e => e.1)

/-- Strict comparison of two durations where `none` models a float `inf`
(the initial value kept when `gate_length` raised `BackendPropertyError`). -/
def ltInf : Option ℚ → Option ℚ → Bool
  | some a, some b => decide (a < b)
  | some _, none => true
  | none, _ => false

/-- Embedding of the natural-direction selection of `UnitarySynthesis.run`
(lines 139-155): `len_0_1`/`len_1_0` start at `inf`, a caught
`BackendPropertyError` leaves them there, and the strictly shorter
direction wins; on ties `natural_direction` stays `None`. -/
def naturalDirection (len_0_1 len_1_0 : Option ℚ) : Option (ℕ × ℕ) :=
  if ltInf len_0_1 len_1_0 then some (0, 1)
  else if ltInf len_1_0 len_0_1 then some (1, 0)
  else none

/-- Embedding of line 165, `basis_fidelity = self._fidelity or physical_gate_fidelity`:
Python `or` returns the left operand unless it is falsy (`None` or `0`). -/
def basisFidelity (fid : Option ℚ) (physical_gate_fidelity : Option ℚ) : Option ℚ :=
  match fid with
  | none => physical_gate_fidelity
  | some f => if f = 0 then physical_gate_fidelity else some f

/-- The result of processing one 2-qubit node: the calibration queries
`(gate name, ordered qubit pair)` issued to `BackendProperties`, the
natural direction, the fidelity handed to the decomposer, and the
two-qubit gate the decomposer itself was built from. -/
structure TwoQSynth where
  queries : List (String × ℕ × ℕ)
  direction : Option (ℕ × ℕ)
  fidelity : Option ℚ
  decomposerGate : String
deriving DecidableEq

/-- Embedding of the calibration part of the 2-qubit branch of
`UnitarySynthesis.run` (lines 134-168), for a node on physical qubits
`q0, q1` with a layout and backend properties present.  Both duration
lookups are wrapped in `try/except BackendPropertyError`; the
`gate_error` lookup for the natural direction is *not* wrapped, so a
missing error entry propagates as an exception (`Except.error`).  All
three lookups use the literal gate name `"cx"`, as in the source;
`kakName` (the gate `decomposer2q` was built from) is not consulted. -/
def process2qCore (lengths : String → ℕ × ℕ → Option ℚ)
    (errors : String → ℕ × ℕ → Option ℚ) (fid : Option ℚ) (q0 q1 : ℕ) :
    Except String (List (String × ℕ × ℕ) × Option (ℕ × ℕ) × Option ℚ) :=
  match naturalDirection (lengths "cx" (q0, q1)) (lengths "cx" (q1, q0)) with
  | none =>
      .ok ([("cx", q0, q1), ("cx", q1, q0)], none, basisFidelity fid none)
  | some d =>
      -- the error lookup pair is [node.qargs[i].index for i in natural_direction]
      match errors "cx" (if d = (0, 1) then (q0, q1) else (q1, q0)) with
      | none => .error "BackendPropertyError"
      | some e =>
          .ok ([("cx", q0, q1), ("cx", q1, q0),
                ("cx", if d = (0, 1) then (q0, q1) else (q1, q0))], some d,
               basisFidelity fid (some (1 - e)))

/-- The full 2-qubit branch: the calibration core (which never mentions the
decomposer's gate) together with the gate `decomposer2q` was built from. -/
def process2q (lengths : String → ℕ × ℕ → Option ℚ) (errors : String → ℕ × ℕ → Option ℚ)
    (fid : Option ℚ) (kakName : String) (q0 q1 : ℕ) : Except String TwoQSynth :=
  (process2qCore lengths errors fid q0 q1).map (fun c => ⟨c.1, c.2.1, c.2.2, kakName⟩)

/-- A node of the circuit graph, as seen by the pass: its operation name
and the number of its qubit arguments. -/
structure Node where
  name : String
  nqargs : ℕ
deriving DecidableEq

/-- What the pass does to one node. -/
inductive SynthAction
  | unchanged
  | synth1q
  | synth2q
  | synthIso
deriving DecidableEq

/-- The dispatch of `UnitarySynthesis.run` for a single node: nodes whose
name is neither `unitary` nor `swap` are never visited; 1-qubit nodes are
skipped when no Euler decomposer exists; 2-qubit nodes are skipped when no
KAK decomposer exists; every other visited node is substituted with the
output of the generic `Isometry` synthesizer, regardless of the basis. -/
def processNode (euler_basis : Option String) (kak_gate : Option String)
    (n : Node) : SynthAction :=
  if ¬ (n.name = "unitary" ∨ n.name = "swap") then .unchanged
  else if n.nqargs = 1 then
    (if euler_basis.isNone then .unchanged else .synth1q)
  else if n.nqargs = 2 then
    (if kak_gate.isNone then .unchanged else .synth2q)
  else .synthIso

/-- One run of the pass over the node list of a graph, recording the action
taken on each node (a node whose action is `unchanged` is not substituted,
so the graph is unchanged exactly when every action is `unchanged`). -/
def runPassActions (setOrder : List String) (basis_gates : List String)
    (nodes : List Node) : List SynthAction :=
  nodes.map (processNode (_choose_euler_basis basis_gates)
    (_choose_kak_gate setOrder basis_gates))

end QiskitSynth

namespace QiskitUCG

open Complex

noncomputable section

/-! ## Exact complex 2x2 matrices

The demultiplexer `UCG._demultiplex_single_uc` and the circuit-assembly
loop of `UCG._dec_ucg` are embedded over exact complex arithmetic: a 2x2
complex matrix is a quadruple of entries. -/

/-- A 2x2 complex matrix; `a b / c d` are the entries
`(0,0), (0,1) / (1,0), (1,1)`. -/
@[ext]
structure CMat2 where
  a : ℂ
  b : ℂ
  c : ℂ
  d : ℂ

namespace CMat2

/-- Matrix product. -/
def mulM (x y : CMat2) : CMat2 :=
  ⟨x.a * y.a + x.b * y.c, x.a * y.b + x.b * y.d,
   x.c * y.a + x.d * y.c, x.c * y.b + x.d * y.d⟩

instance : Mul CMat2 := ⟨mulM⟩
instance : One CMat2 := ⟨⟨1, 0, 0, 1⟩⟩
instance : Zero CMat2 := ⟨⟨0, 0, 0, 0⟩⟩

theorem mul_def (x y : CMat2) : x * y =
    ⟨x.a * y.a + x.b * y.c, x.a * y.b + x.b * y.d,
     x.c * y.a + x.d * y.c, x.c * y.b + x.d * y.d⟩ := rfl

theorem one_def : (1 : CMat2) = ⟨1, 0, 0, 1⟩ := rfl

instance : Monoid CMat2 where
  mul_assoc x y z := by
    show mulM (mulM x y) z = mulM x (mulM y z)
    simp only [mulM]
    ext <;> ring
  one_mul x := by
    show mulM 1 x = x
    simp only [mulM, one_def]
    ext <;> ring
  mul_one x := by
    show mulM x 1 = x
    simp only [mulM, one_def]
    ext <;> ring

/-- Conjugate transpose, the source's `_ct(m)`. -/
def ct (m : CMat2) : CMat2 :=
  ⟨(starRingEnd ℂ) m.a, (starRingEnd ℂ) m.c, (starRingEnd ℂ) m.b, (starRingEnd ℂ) m.d⟩

/-- Determinant. -/
def det (m : CMat2) : ℂ := m.a * m.d - m.b * m.c

/-- Trace. -/
def trace (m : CMat2) : ℂ := m.a + m.d

/-- Diagonal matrix. -/
def diagM (x y : ℂ) : CMat2 := ⟨x, 0, 0, y⟩

/-- Unitarity in exact arithmetic: `M†M = I`. -/
def unitary (m : CMat2) : Prop := ct m * m = 1

/-- The explicit 2x2 inverse (adjugate over determinant). -/
def invM (m : CMat2) : CMat2 :=
  ⟨m.d / det m, -m.b / det m, -m.c / det m, m.a / det m⟩

/-- The Hadamard matrix `_h()`. -/
def hM : CMat2 :=
  ⟨1 / Real.sqrt 2, 1 / Real.sqrt 2, 1 / Real.sqrt 2, -(1 / Real.sqrt 2)⟩

/-- The Z-rotation `_rz(alpha) = diag(exp(i alpha/2), exp(-i alpha/2))`. -/
def rzM (alpha : ℝ) : CMat2 :=
  diagM (Complex.exp (Complex.I * alpha / 2)) (Complex.exp (-(Complex.I * alpha / 2)))

end CMat2

open CMat2

/-- The principal complex square root, `cmath.sqrt` / `np.sqrt` on scalars:
`exp(log z / 2)`, with `sqrt 0 = 0`. -/
def csqrt (z : ℂ) : ℂ := if z = 0 then 0 else Complex.exp (Complex.log z / 2)

/-! ### The demultiplexer `_demultiplex_single_uc`

Its intermediate values are embedded one by one.  The eigendecomposition
`d, u = np.linalg.eig(r.dot(x).dot(r))` is an external LAPACK call; it is
modelled in the theorems by hypotheses expressing its contract. -/

/-- `x = a.dot(_ct(b))`. -/
def dmx_x (A B : CMat2) : CMat2 := A * ct B

/-- `det_x = np.linalg.det(x)`. -/
def dmx_detx (A B : CMat2) : ℂ := det (dmx_x A B)

/-- `x11 = x.item((0,0)) / cmath.sqrt(det_x)`. -/
def dmx_x11 (A B : CMat2) : ℂ := (dmx_x A B).a / csqrt (dmx_detx A B)

/-- `phi = cmath.phase(det_x)`. -/
def dmx_phi (A B : CMat2) : ℝ := (dmx_detx A B).arg

/-- `r1 = cmath.exp(1j / 2 * (pi / 2 - phi / 2 - cmath.phase(x11)))`. -/
def dmx_r1 (A B : CMat2) : ℂ :=
  Complex.exp (Complex.I / 2 *
    ((Real.pi / 2 - dmx_phi A B / 2 - (dmx_x11 A B).arg : ℝ) : ℂ))

/-- `r2 = cmath.exp(1j / 2 * (pi / 2 - phi / 2 + cmath.phase(x11) + pi))`. -/
def dmx_r2 (A B : CMat2) : ℂ :=
  Complex.exp (Complex.I / 2 *
    ((Real.pi / 2 - dmx_phi A B / 2 + (dmx_x11 A B).arg + Real.pi : ℝ) : ℂ))

/-- `r = np.array([[r1, 0], [0, r2]])`. -/
def dmx_r (A B : CMat2) : CMat2 := diagM (dmx_r1 A B) (dmx_r2 A B)

/-- `r.dot(x).dot(r)`, the matrix handed to `np.linalg.eig`. -/
def dmx_rxr (A B : CMat2) : CMat2 := dmx_r A B * dmx_x A B * dmx_r A B

/-- The source's `_EPS = 1e-10` as a real tolerance. -/
def EPSr : ℝ := 1 / 10 ^ 10

/-- The normalization step: `if abs(d[0] + 1j) < _EPS: d = np.flip(d, 0); u = np.flip(u, 1)`
(flip the eigenvalue pair and swap the eigenvector columns). -/
def dmx_flip (d0 d1 : ℂ) (u : CMat2) : ℂ × ℂ × CMat2 :=
  if Complex.abs (d0 + Complex.I) < EPSr then (d1, d0, ⟨u.b, u.a, u.d, u.c⟩)
  else (d0, d1, u)

/-- `d = np.diag(np.sqrt(d))` after the flip. -/
def dmx_sqrtD (d0 d1 : ℂ) : CMat2 := diagM (csqrt d0) (csqrt d1)

/-- `v = d.dot(_ct(u)).dot(_ct(r)).dot(b)`, computed from the flipped
eigendecomposition `(d0', d1', u')`. -/
def dmx_v (A B : CMat2) (d0 d1 : ℂ) (u : CMat2) : CMat2 :=
  let f := dmx_flip d0 d1 u
  dmx_sqrtD f.1 f.2.1 * ct f.2.2 * ct (dmx_r A B) * B

/-! ### The assembly loop of `_dec_ucg` (lines 112-129)

The loop places the (absorbed) leaf single-qubit gates on the target qubit
interleaved with CNOTs whose control index is the number of trailing zeros
of `i+1`. -/

/-- One instruction appended by the assembly loop: a single-qubit gate on
the target (`circuit.squ`) or a CNOT with the given control index into
`q_controls` (`circuit.cx(q_controls[j], q_target)`). -/
inductive Instr
  | squ (m : CMat2)
  | cx (control : ℕ)

/-- The trailing-zero count computed by the source from the binary string:
`binary_rep = np.binary_repr(i + 1); len(binary_rep) - len(binary_rep.rstrip('0'))`.
For `n >= 1` this is the number of trailing zero bits of `n`
(`np.binary_repr(0) = "0"` strips to the empty string, giving 1). -/
def numTrailingZeros : ℕ → ℕ
  | 0 => 1
  | (n + 1) => if (n + 1) % 2 = 1 then 0 else numTrailingZeros ((n + 1) / 2) + 1
decreasing_by exact Nat.div_lt_self (Nat.succ_pos n) (by norm_num)

/-- The absorption of the Hadamard and `Rz(pi/2)` gates into leaf `i` of
`n` (source lines 113-119): the first leaf is `H . g`, the last is
`g . Rz(pi/2) . H`, and interior leaves are `H . (g . Rz(pi/2)) . H`. -/
def absorbLeaf (n i : ℕ) (g : CMat2) : CMat2 :=
  if i = 0 then hM * g
  else if i = n - 1 then g * rzM (Real.pi / 2) * hM
  else hM * (g * rzM (Real.pi / 2)) * hM

/-- The loop body of `_dec_ucg`, iterating `i` from `i0` for `fuel` steps
with `n = len(single_qubit_gates)`: append the absorbed leaf, then a CNOT
controlled on `q_controls[numTrailingZeros (i+1)]` unless `i` is the last
index. -/
def loopGo (s : List CMat2) (n : ℕ) : ℕ → ℕ → List Instr
  | 0, _ => []
  | (fuel + 1), i =>
      (Instr.squ (absorbLeaf n i (s.getD i 0)) ::
        (if i = n - 1 then [] else [Instr.cx (numTrailingZeros (i + 1))])) ++
        loopGo s n fuel (i + 1)

/-- The instruction list produced by the assembly loop of `_dec_ucg` for
the leaf list `s` (`for i in range(len(single_qubit_gates))`). -/
def dec_ucg_loop (s : List CMat2) : List Instr := loopGo s s.length s.length 0

end

end QiskitUCG


namespace QiskitSynth

/-- Helper: `_choose_kak_gate` returns `none` when the requested basis set
is empty, whatever the set-iteration order is. -/
theorem choose_kak_gate_nil (setOrder : List String) :
    _choose_kak_gate setOrder [] = none := by
  unfold _choose_kak_gate
  rw [List.find?_eq_none]
  intro g _
  simp [List.contains]

/-- C4 counterexample: with a requested synthesis fidelity of `0.99` and a
calibrated natural-direction error of `0.1` (physical gate fidelity
`0.9`), the code passes `0.99` to the decomposer, not
`min 0.99 0.9 = 0.9` as the claim states. -/
theorem claim_C4_counterexample :
    basisFidelity (some (99 / 100)) (some (9 / 10)) = some (99 / 100) ∧
      ¬ basisFidelity (some (99 / 100)) (some (9 / 10)) =
          some (min (99 / 100 : ℚ) (9 / 10)) := by
  constructor
  · norm_num [basisFidelity]
  · intro h
    rw [show basisFidelity (some (99 / 100)) (some (9 / 10)) = some (99 / 100) from
      by norm_num [basisFidelity]] at h
    norm_num at h

/-- C4 (amended): `basis_fidelity = self._fidelity or physical_gate_fidelity`
is Python truthiness selection, not a minimum: the requested fidelity wins
outright whenever it is available and non-zero, and the physical gate
fidelity is used only when the requested one is `None` or `0`. -/
theorem claim_C4 (fid physical : Option ℚ) :
    (∀ x : ℚ, fid = some x → x ≠ 0 → basisFidelity fid physical = some x) ∧
      basisFidelity none physical = physical ∧
      basisFidelity (some 0) physical = physical := by
  refine ⟨?_, rfl, by simp [basisFidelity]⟩
  intro x hx hx0
  subst hx
  simp [basisFidelity, hx0]

/-- C4 witness: the amended behaviour at concrete inputs. -/
theorem claim_C4_witness :
    basisFidelity (some (1 / 2)) (some (3 / 4)) = some (1 / 2) ∧
      basisFidelity none (some (3 / 4)) = some (3 / 4) ∧
      basisFidelity (some 0) (some (3 / 4)) = some (3 / 4) :=
  ⟨(claim_C4 (some (1 / 2)) (some (3 / 4))).1 (1 / 2) rfl (by norm_num),
   (claim_C4 none (some (3 / 4))).2.1,
   (claim_C4 (some 0) (some (3 / 4))).2.2⟩

/-- C7: the two-qubit gate choice is *not* the first entry of an ordered
preference table — `_choose_kak_gate` pops an arbitrary element of an
unordered set, so for `basis_gates = ["cx", "cz"]` two legitimate
set-iteration orders give different gates (`cx` under one hash order, `cz`
under another), contradicting the docstring "Choose the first available 2q
gate" and the claimed determinism.  The Euler-basis half of the selector
does follow its insertion-ordered table. -/
theorem claim_C7 :
    _choose_kak_gate ["cx", "cz", "iswap", "rxx", "ecr"] ["cx", "cz"] = some "cx" ∧
      _choose_kak_gate ["cz", "cx", "iswap", "rxx", "ecr"] ["cx", "cz"] = some "cz" ∧
      _choose_euler_basis ["rz", "rx", "ry"] = some "ZYZ" := by
  refine ⟨by decide, by decide, by decide⟩

/-- C9 counterexample: with an empty basis-gate set, a 3-qubit `unitary`
node is still substituted (via the generic isometry synthesizer), so the
graph is not left unchanged. -/
theorem claim_C9_counterexample :
    runPassActions kakGateNames [] [⟨"unitary", 3⟩] = [SynthAction.synthIso] ∧
      SynthAction.synthIso ≠ SynthAction.unchanged := by
  exact ⟨by decide, by decide⟩

/-- C9 (amended): with an empty basis-gate set no 1- or 2-qubit node is
substituted (both decomposers are `None`), and nodes not named
`unitary`/`swap` are never touched, but every visited node on three or
more qubits (or zero qubits) is still substituted through the generic
isometry synthesizer, regardless of the set-iteration order. -/
theorem claim_C9 (setOrder : List String) (nodes : List Node) :
    runPassActions setOrder [] nodes =
      nodes.map (fun n =>
        if (n.name = "unitary" ∨ n.name = "swap") ∧ ¬ (n.nqargs = 1 ∨ n.nqargs = 2)
        then SynthAction.synthIso else SynthAction.unchanged) := by
  unfold runPassActions
  rw [choose_kak_gate_nil]
  apply List.map_congr_left
  intro n _
  have he : _choose_euler_basis [] = none := rfl
  rw [he]
  unfold processNode
  by_cases h1 : n.name = "unitary" ∨ n.name = "swap" <;>
    by_cases h2 : n.nqargs = 1 <;>
      by_cases h3 : n.nqargs = 2 <;>
        simp [h1, h2, h3, Option.isNone]

/-- Helper: the `<` comparison with `inf`-defaults is asymmetric. -/
theorem ltInf_asymm (x y : Option ℚ) (h : ltInf x y = true) : ltInf y x = false := by
  cases x <;> cases y <;> simp [ltInf] at h ⊢
  linarith

/-- Helper: `isError` of the full 2-qubit branch equals `isError` of its
calibration core. -/
theorem process2q_isError (lengths errors : String → ℕ × ℕ → Option ℚ) (fid : Option ℚ)
    (kakName : String) (q0 q1 : ℕ) :
    QiskitUCG.isError (process2q lengths errors fid kakName q0 q1) =
      QiskitUCG.isError (process2qCore lengths errors fid q0 q1) := by
  unfold process2q
  cases process2qCore lengths errors fid q0 q1 <;> rfl

/-- Helper: the 2-qubit branch raises exactly when a natural direction was
found but the `gate_error` entry for it is missing (`gate_error` is outside
the `try/except`). -/
theorem process2qCore_error_iff (lengths errors : String → ℕ × ℕ → Option ℚ)
    (fid : Option ℚ) (q0 q1 : ℕ) :
    QiskitUCG.isError (process2qCore lengths errors fid q0 q1) = true ↔
      ∃ dd, naturalDirection (lengths "cx" (q0, q1)) (lengths "cx" (q1, q0)) = some dd ∧
        errors "cx" (if dd = (0, 1) then (q0, q1) else (q1, q0)) = none := by
  cases hnd : naturalDirection (lengths "cx" (q0, q1)) (lengths "cx" (q1, q0)) with
  | none => simp [process2qCore, hnd, QiskitUCG.isError]
  | some d =>
      cases herr : errors "cx" (if d = (0, 1) then (q0, q1) else (q1, q0)) with
      | none => simp [process2qCore, hnd, herr, QiskitUCG.isError]
      | some e => simp [process2qCore, hnd, herr, QiskitUCG.isError]

/-- C8 counterexample: durations are calibrated for both orders
(`(0,1) -> 1`, `(1,0) -> 2`, so the natural direction `[0,1]` exists), but
the gate-error entry is missing; the pass then raises
`BackendPropertyError` out of `run`, contradicting the claim that a
missing calibration entry for one ordered pair never raises out of the
pass or aborts fidelity selection. -/
theorem claim_C8_counterexample :
    process2q (fun _ p => if p = (0, 1) then some 1 else if p = (1, 0) then some 2 else none)
        (fun _ _ => none) (some 1) "cx" 0 1 = .error "BackendPropertyError" := by
  rfl

/-- C8 (amended): the natural direction is `[0,1]` exactly when the
duration of `(q0,q1)` is strictly below that of `(q1,q0)` (a missing
duration entry counting as infinite for that direction only), `[1,0]` in
the strictly opposite case, and absent on ties; a missing *duration* entry
never raises.  However the `gate_error` lookup for the chosen natural
direction is not guarded, so the branch raises exactly when a natural
direction exists and its error entry is missing. -/
theorem claim_C8 :
    (∀ l01 l10 : Option ℚ,
        (naturalDirection l01 l10 = some (0, 1) ↔ ltInf l01 l10 = true) ∧
        (naturalDirection l01 l10 = some (1, 0) ↔ ltInf l10 l01 = true) ∧
        (naturalDirection l01 l10 = none ↔
          (ltInf l01 l10 = false ∧ ltInf l10 l01 = false))) ∧
    (∀ d : ℚ, naturalDirection (some d) none = some (0, 1) ∧
        naturalDirection none (some d) = some (1, 0) ∧
        naturalDirection (some d) (some d) = none) ∧
    naturalDirection none none = none ∧
    (∀ (lengths errors : String → ℕ × ℕ → Option ℚ) (fid : Option ℚ)
        (kakName : String) (q0 q1 : ℕ),
        (errors "cx" (q0, q1)).isSome = true → (errors "cx" (q1, q0)).isSome = true →
          QiskitUCG.isError (process2q lengths errors fid kakName q0 q1) = false) ∧
    (∀ (lengths errors : String → ℕ × ℕ → Option ℚ) (fid : Option ℚ)
        (kakName : String) (q0 q1 : ℕ),
        QiskitUCG.isError (process2q lengths errors fid kakName q0 q1) = true ↔
          ∃ dd, naturalDirection (lengths "cx" (q0, q1)) (lengths "cx" (q1, q0)) = some dd ∧
            errors "cx" (if dd = (0, 1) then (q0, q1) else (q1, q0)) = none) := by
  refine ⟨?_, ?_, rfl, ?_, ?_⟩
  · intro l01 l10
    by_cases h1 : ltInf l01 l10 = true
    · have h2 := ltInf_asymm _ _ h1
      simp [naturalDirection, h1, h2]
    · rw [Bool.not_eq_true] at h1
      by_cases h2 : ltInf l10 l01 = true
      · simp [naturalDirection, h1, h2]
      · rw [Bool.not_eq_true] at h2
        simp [naturalDirection, h1, h2]
  · intro d
    refine ⟨rfl, rfl, ?_⟩
    simp [naturalDirection, ltInf]
  · intro lengths errors fid kakName q0 q1 h1 h2
    rw [process2q_isError]
    rw [Bool.eq_false_iff]
    intro hc
    obtain ⟨dd, _, herr⟩ := (process2qCore_error_iff lengths errors fid q0 q1).mp hc
    by_cases hd : dd = (0, 1)
    · rw [hd] at herr
      simp at herr
      rw [herr] at h1
      cases h1
    · rw [if_neg hd] at herr
      rw [herr] at h2
      cases h2
  · intro lengths errors fid kakName q0 q1
    rw [process2q_isError]
    exact process2qCore_error_iff lengths errors fid q0 q1

/-- C8 witness: the amended behaviour at concrete calibration tables. -/
theorem claim_C8_witness :
    (naturalDirection (some 1) none = some (0, 1)) ∧
      QiskitUCG.isError
        (process2q (fun _ p => if p = (0, 1) then some 1 else none)
          (fun _ _ => some (1 / 100)) (some 1) "cx" 0 1) = false :=
  ⟨(claim_C8.2.1 1).1,
   claim_C8.2.2.2.1 (fun _ p => if p = (0, 1) then some 1 else none)
     (fun _ _ => some (1 / 100)) (some 1) "cx" 0 1 rfl rfl⟩

/-- C10: the natural-direction duration lookups and the error lookup of
the 2-qubit branch always query the backend calibration with the fixed
gate name `"cx"`, whatever two-qubit gate the decomposer was actually
built from; consequently the queries, direction and fidelity are
independent of the selected KAK gate. -/
theorem claim_C10 (lengths errors : String → ℕ × ℕ → Option ℚ) (fid : Option ℚ)
    (kak1 kak2 : String) (q0 q1 : ℕ) :
    ((process2q lengths errors fid kak1 q0 q1).map TwoQSynth.queries =
        (process2q lengths errors fid kak2 q0 q1).map TwoQSynth.queries ∧
      (process2q lengths errors fid kak1 q0 q1).map TwoQSynth.direction =
        (process2q lengths errors fid kak2 q0 q1).map TwoQSynth.direction ∧
      (process2q lengths errors fid kak1 q0 q1).map TwoQSynth.fidelity =
        (process2q lengths errors fid kak2 q0 q1).map TwoQSynth.fidelity) ∧
      ∀ t : TwoQSynth, process2q lengths errors fid kak1 q0 q1 = .ok t →
        ∀ q ∈ t.queries, q.1 = "cx" := by
  constructor
  · cases h : process2qCore lengths errors fid q0 q1 with
    | error e => simp [process2q, h, Except.map]
    | ok c => simp [process2q, h, Except.map]
  · intro t ht q hq
    unfold process2q at ht
    cases h : process2qCore lengths errors fid q0 q1 with
    | error e => rw [h] at ht; cases ht
    | ok c =>
        rw [h] at ht
        simp only [Except.map] at ht
        cases ht
        have : ∀ q ∈ c.1, (q : String × ℕ × ℕ).1 = "cx" := by
          intro q hq
          unfold process2qCore at h
          split at h
          · cases h
            simp only [List.mem_cons, List.not_mem_nil, or_false] at hq
            rcases hq with h' | h' <;> (subst h'; rfl)
          · split at h
            · cases h
            · cases h
              simp only [List.mem_cons, List.not_mem_nil, or_false] at hq
              rcases hq with h' | h' | h' <;> (subst h'; rfl)
        exact this q hq

/-- C10 witness: at a concrete backend with no calibration data, the
queries are `cx`-named and the outcome does not depend on the choice of
`iswap` versus `cz` as the decomposer gate. -/
theorem claim_C10_witness :
    ((process2q (fun _ _ => none) (fun _ _ => none) (some 1) "iswap" 0 1).map
        TwoQSynth.queries =
      (process2q (fun _ _ => none) (fun _ _ => none) (some 1) "cz" 0 1).map
        TwoQSynth.queries) ∧
      ∀ q ∈ [("cx", 0, 1), ("cx", 1, 0)], (q : String × ℕ × ℕ).1 = "cx" :=
  ⟨(claim_C10 (fun _ _ => none) (fun _ _ => none) (some 1) "iswap" "cz" 0 1).1.1,
   fun q hq =>
    (claim_C10 (fun _ _ => none) (fun _ _ => none) (some 1) "iswap" "cz" 0 1).2
      ⟨[("cx", 0, 1), ("cx", 1, 0)], none, some 1, "iswap"⟩ rfl q hq⟩

end QiskitSynth

namespace QiskitUCG

open QMat

/-- Unfolding lemma for the `QC` zero literal. -/
theorem QC.zero_val : (0 : QC) = ⟨0, 0⟩ := rfl

/-- Unfolding lemma for the `QC` one literal. -/
theorem QC.one_val : (1 : QC) = ⟨1, 0⟩ := rfl

/-- Helper: `isPow2` decides exactly the powers of two (the property the
source's `math.log2(...).is_integer()` test checks). -/
theorem isPow2_iff (n : ℕ) : isPow2 n = true ↔ ∃ j, n = 2 ^ j := by
  induction n using Nat.strong_induction_on with
  | _ n ih =>
    match n with
    | 0 =>
        simp only [isPow2, Bool.false_eq_true, false_iff]
        rintro ⟨j, hj⟩
        have := Nat.one_le_two_pow (n := j)
        omega
    | 1 => exact ⟨fun _ => ⟨0, rfl⟩, fun _ => by simp [isPow2]⟩
    | (m + 2) =>
        rw [isPow2, Bool.and_eq_true, decide_eq_true_eq]
        constructor
        · rintro ⟨heven, hrec⟩
          obtain ⟨j, hj⟩ := (ih ((m + 2) / 2) (by omega)).mp hrec
          exact ⟨j + 1, by omega⟩
        · rintro ⟨j, hj⟩
          match j with
          | 0 => omega
          | (j' + 1) =>
              have hj' : (m + 2) / 2 = 2 ^ j' := by
                have : (2 : ℕ) ^ (j' + 1) = 2 * 2 ^ j' := by ring
                omega
              refine ⟨by omega, (ih ((m + 2) / 2) (by omega)).mpr ⟨j', hj'⟩⟩

/-- Helper: `UCG.__init__` succeeds exactly when every gate is 2x2, the
list is non-empty of power-of-two length, and every gate passes the
isometry check. -/
theorem UCG_init_ok_iff (gl : List QMat) (u : Bool) :
    isError (UCG_init gl u) = false ↔
      (gl.all (fun g => hasShape g 2 2) = true ∧ gl.length ≠ 0 ∧
        isPow2 gl.length = true ∧ gl.all (fun g => _is_isometry g EPSq) = true) := by
  by_cases h1 : gl.all (fun g => hasShape g 2 2) = true
  · by_cases h2 : gl.length = 0
    · simp [UCG_init, h1, h2, isError]
    · by_cases h3 : isPow2 gl.length = true
      · by_cases h4 : gl.all (fun g => _is_isometry g EPSq) = true
        · simp [UCG_init, h1, h2, h3, h4, isError]
        · simp [UCG_init, h1, h2, h3, h4, isError]
      · simp [UCG_init, h1, h2, h3, isError]
  · simp [UCG_init, h1, isError]

/-- C5: every malformed input is rejected before a gate object is created:
an empty list, any non-2x2 entry, a length that is not a power of two
(length 3 in particular), a non-unitary entry, and — at the `circuit.ucg`
entry point — a control count with `len(gate_list) != 2 ** len(q_controls)`
all yield an error; and construction succeeds exactly when all checks
pass, so no partial object ever exists. -/
theorem claim_C5 :
    (∀ u, isError (UCG_init [] u) = true) ∧
    (∀ (gl : List QMat) (u : Bool) (g : QMat), g ∈ gl → hasShape g 2 2 = false →
      isError (UCG_init gl u) = true) ∧
    (∀ (gl : List QMat) (u : Bool), gl.length = 3 → isError (UCG_init gl u) = true) ∧
    (∀ (gl : List QMat) (u : Bool), (¬ ∃ j, gl.length = 2 ^ j) →
      isError (UCG_init gl u) = true) ∧
    (∀ (gl : List QMat) (u : Bool) (g : QMat), g ∈ gl → _is_isometry g EPSq = false →
      isError (UCG_init gl u) = true) ∧
    (∀ (gl : List QMat) (qc : List ℕ) (qt : ℕ) (u : Bool), gl.length ≠ 2 ^ qc.length →
      isError (ucg gl qc qt u) = true) ∧
    (∀ (gl : List QMat) (u : Bool), isError (UCG_init gl u) = false ↔
      (gl.all (fun g => hasShape g 2 2) = true ∧ gl.length ≠ 0 ∧
        isPow2 gl.length = true ∧ gl.all (fun g => _is_isometry g EPSq) = true)) := by
  have hmem : ∀ (gl : List QMat) (g : QMat) (p : QMat → Bool), g ∈ gl → p g = false →
      gl.all p = true → False := by
    intro gl g p hg hp hall
    rw [List.all_eq_true] at hall
    have := hall g hg
    rw [hp] at this
    cases this
  refine ⟨?_, ?_, ?_, ?_, ?_, ?_, UCG_init_ok_iff⟩
  · intro u
    rfl
  · intro gl u g hg hshape
    by_contra hne
    rw [Bool.not_eq_true] at hne
    obtain ⟨hall, -, -, -⟩ := (UCG_init_ok_iff gl u).mp hne
    exact hmem gl g _ hg hshape hall
  · intro gl u hlen
    by_contra hne
    rw [Bool.not_eq_true] at hne
    obtain ⟨-, -, hpow, -⟩ := (UCG_init_ok_iff gl u).mp hne
    rw [hlen] at hpow
    simp [isPow2] at hpow
  · intro gl u hnp
    by_contra hne
    rw [Bool.not_eq_true] at hne
    obtain ⟨-, -, hpow, -⟩ := (UCG_init_ok_iff gl u).mp hne
    exact hnp ((isPow2_iff gl.length).mp hpow)
  · intro gl u g hg hiso
    by_contra hne
    rw [Bool.not_eq_true] at hne
    obtain ⟨-, -, -, hall⟩ := (UCG_init_ok_iff gl u).mp hne
    exact hmem gl g _ hg hiso hall
  · intro gl qc qt u hne
    by_cases h1 : gl.length = 0
    · simp [ucg, h1, isError]
    · by_cases h2 : isPow2 gl.length = true
      · by_cases h3 : Nat.log2 gl.length = qc.length
        · exfalso
          obtain ⟨j, hj⟩ := (isPow2_iff gl.length).mp h2
          apply hne
          rw [hj] at h3 ⊢
          rw [Nat.log2_two_pow] at h3
          rw [h3]
        · simp [ucg, h1, h2, h3, isError]
      · simp [ucg, h1, h2, isError]

/-- C5 witness: the rejections at concrete malformed inputs and an
acceptance at a well-formed one. -/
theorem claim_C5_witness :
    isError (UCG_init [] false) = true ∧
      isError (UCG_init [eyeQ 2, eyeQ 2, eyeQ 2] false) = true ∧
      isError (ucg [eyeQ 2, eyeQ 2] [0, 1] 2 false) = true ∧
      (isError (UCG_init [eyeQ 2, eyeQ 2] false) = false ↔
        ([eyeQ 2, eyeQ 2].all (fun g => hasShape g 2 2) = true ∧
          ([eyeQ 2, eyeQ 2] : List QMat).length ≠ 0 ∧
          isPow2 ([eyeQ 2, eyeQ 2] : List QMat).length = true ∧
          [eyeQ 2, eyeQ 2].all (fun g => _is_isometry g EPSq) = true)) :=
  ⟨claim_C5.1 false,
   claim_C5.2.2.1 [eyeQ 2, eyeQ 2, eyeQ 2] false rfl,
   claim_C5.2.2.2.2.2.1 [eyeQ 2, eyeQ 2] [0, 1] 2 false (by decide),
   claim_C5.2.2.2.2.2.2 [eyeQ 2, eyeQ 2] false⟩

/-- Helper: the squared Frobenius norm is non-negative. -/
theorem isometryErr2_nonneg (m : QMat) : 0 ≤ isometryErr2 m := by
  unfold isometryErr2 frobSq
  apply List.sum_nonneg
  intro x hx
  simp only [List.mem_map] at hx
  obtain ⟨row, -, rfl⟩ := hx
  apply List.sum_nonneg
  intro y hy
  simp only [List.mem_map] at hy
  obtain ⟨e, -, rfl⟩ := hy
  unfold QC.normSq
  nlinarith [mul_self_nonneg e.re, mul_self_nonneg e.im]

/-- C6 counterexample: at `M = [[0,0],[0,1]]` and `eps = 1` the norm of
`M†M - I` is exactly `1 = eps`; `math.isclose(err, 0, abs_tol=eps)` accepts
it, while the claimed strict condition `norm < eps` does not hold (stated
on squares: `isometryErr2 M = 1` is not `< eps^2 = 1`). -/
theorem claim_C6_counterexample :
    _is_isometry [[(0 : QC), 0], [0, 1]] 1 = true ∧
      ¬ (isometryErr2 [[(0 : QC), 0], [0, 1]] < 1 ^ 2) := by
  have h1 : isometryErr2 [[(0 : QC), 0], [0, 1]] = 1 := by
    simp [isometryErr2, frobSq, matSub, matMul, ctM, transposeM, QMat.cols, QMat.dot, eyeQ,
      QC.normSq, QC.conj, QC.add, QC.sub, QC.mul, QC.zero_val, QC.one_val, List.range_succ,
      List.getD]
  constructor
  · unfold _is_isometry
    rw [h1]
    norm_num
  · rw [h1]
    norm_num

/-- C6 (amended): for `eps >= 0`, `_is_isometry M eps` is true iff
`norm(M†M - I) <= eps` (non-strict, stated on squares); in particular it
rejects every `M` with norm error strictly greater than `eps`, and accepts
the identity and every exactly-unitary matrix (norm error `0`), such as
the exact demultiplexer outputs. -/
theorem claim_C6 (m : QMat) (eps : ℚ) :
    (0 ≤ eps → (_is_isometry m eps = true ↔ isometryErr2 m ≤ eps ^ 2)) ∧
    (isometryErr2 m = 0 → _is_isometry m eps = true) ∧
    _is_isometry (eyeQ 2) eps = true := by
  refine ⟨?_, ?_, ?_⟩
  · intro heps
    unfold _is_isometry
    rw [Bool.or_eq_true, Bool.and_eq_true, decide_eq_true_eq, decide_eq_true_eq,
      decide_eq_true_eq]
    constructor
    · rintro (h | ⟨-, h2⟩)
      · have h0 := isometryErr2_nonneg m
        nlinarith [sq_nonneg eps]
      · exact h2
    · intro h
      exact Or.inr ⟨heps, h⟩
  · intro h0
    unfold _is_isometry
    rw [h0]
    norm_num
  · have h0 : isometryErr2 (eyeQ 2) = 0 := by
      simp [isometryErr2, frobSq, matSub, matMul, ctM, transposeM, QMat.cols, QMat.dot, eyeQ,
      QC.normSq, QC.conj, QC.add, QC.sub, QC.mul, QC.zero_val, QC.one_val, List.range_succ,
      List.getD]
    unfold _is_isometry
    rw [h0]
    norm_num

/-- C6 witness: the amended equivalence instantiated at the identity with
the source tolerance `1e-10`, and acceptance of the identity. -/
theorem claim_C6_witness :
    (_is_isometry (eyeQ 2) EPSq = true ↔ isometryErr2 (eyeQ 2) ≤ EPSq ^ 2) ∧
      _is_isometry (eyeQ 2) (1 / 2) = true :=
  ⟨(claim_C6 (eyeQ 2) EPSq).1 (by norm_num [EPSq]),
   (claim_C6 (eyeQ 2) (1 / 2)).2.2⟩

end QiskitUCG

namespace QiskitUCG

open CMat2

/-- Unfolding equation for one iteration of the assembly loop. -/
theorem loopGo_succ (s : List CMat2) (n fuel i : ℕ) :
    loopGo s n (fuel + 1) i =
      (Instr.squ (absorbLeaf n i (s.getD i 0)) ::
        (if i = n - 1 then [] else [Instr.cx (numTrailingZeros (i + 1))])) ++
        loopGo s n fuel (i + 1) := rfl

/-- Helper: running the loop for `fuel >= 1` further iterations starting at
`i` with `i + fuel = n` emits `2 * fuel - 1` instructions (each iteration
emits a leaf and a CNOT, except the last iteration which emits no CNOT). -/
theorem loopGo_length (s : List CMat2) (n : ℕ) :
    ∀ fuel i, i + fuel = n → 1 ≤ fuel → (loopGo s n fuel i).length = 2 * fuel - 1 := by
  intro fuel
  induction fuel with
  | zero => intro i _ h; omega
  | succ f ih =>
      intro i hin _
      rw [loopGo_succ]
      by_cases hi : i = n - 1
      · have hf : f = 0 := by omega
        subst hf
        rw [if_pos hi]
        simp [loopGo]
      · rw [if_neg hi]
        have hf : 1 ≤ f := by omega
        have := ih (i + 1) (by omega) hf
        simp only [List.cons_append, List.singleton_append, List.nil_append,
          List.length_cons, List.length_append, this]
        omega

/-- Helper: instruction `2*j` of the loop tail is the absorbed leaf `i+j`. -/
theorem loopGo_get_squ (s : List CMat2) (n : ℕ) :
    ∀ fuel i j, i + fuel = n → j < fuel →
      (loopGo s n fuel i)[2 * j]? =
        some (Instr.squ (absorbLeaf n (i + j) (s.getD (i + j) 0))) := by
  intro fuel
  induction fuel with
  | zero => intro i j _ hj; omega
  | succ f ih =>
      intro i j hin hj
      rw [loopGo_succ]
      by_cases hi : i = n - 1
      · have hf : f = 0 := by omega
        have hj0 : j = 0 := by omega
        subst hf hj0
        rw [if_pos hi]
        simp [loopGo]
      · rw [if_neg hi]
        cases j with
        | zero => simp
        | succ j' =>
            have h2 : 2 * (j' + 1) = (2 * j' + 1) + 1 := by ring
            rw [h2]
            simp only [List.cons_append, List.singleton_append, List.nil_append,
              List.getElem?_cons_succ]
            have := ih (i + 1) j' (by omega) (by omega)
            have he : i + 1 + j' = i + (j' + 1) := by omega
            rw [he] at this
            exact this

/-- Helper: instruction `2*j + 1` of the loop tail is the CNOT after leaf
`i+j`, controlled on index `numTrailingZeros (i+j+1)`. -/
theorem loopGo_get_cx (s : List CMat2) (n : ℕ) :
    ∀ fuel i j, i + fuel = n → j + 1 < fuel →
      (loopGo s n fuel i)[2 * j + 1]? =
        some (Instr.cx (numTrailingZeros (i + j + 1))) := by
  intro fuel
  induction fuel with
  | zero => intro i j _ hj; omega
  | succ f ih =>
      intro i j hin hj
      rw [loopGo_succ]
      have hi : ¬ i = n - 1 := by omega
      rw [if_neg hi]
      cases j with
      | zero => simp
      | succ j' =>
          have h2 : 2 * (j' + 1) + 1 = (2 * j' + 1 + 1) + 1 := by ring
          rw [h2]
          simp only [List.cons_append, List.singleton_append, List.nil_append,
            List.getElem?_cons_succ]
          have := ih (i + 1) j' (by omega) (by omega)
          have he : i + 1 + j' + 1 = i + (j' + 1) + 1 := by omega
          rw [he] at this
          exact this

/-- Helper: `numTrailingZeros m` is the number of trailing zero bits of
`m >= 1`: `2 ^ numTrailingZeros m` divides `m` and `2 ^ (numTrailingZeros m + 1)`
does not. -/
theorem numTrailingZeros_spec (m : ℕ) (hm : 1 ≤ m) :
    2 ^ numTrailingZeros m ∣ m ∧ ¬ 2 ^ (numTrailingZeros m + 1) ∣ m := by
  induction m using Nat.strong_induction_on with
  | _ m ih =>
    match m, hm with
    | (k + 1), _ =>
        rw [numTrailingZeros]
        by_cases h : (k + 1) % 2 = 1
        · rw [if_pos h]
          constructor
          · simp
          · simp only [zero_add, pow_one]
            omega
        · rw [if_neg h]
          have hq2 : (k + 1) % 2 = 0 := by omega
          have hq : k + 1 = 2 * ((k + 1) / 2) := by omega
          have hq1 : 1 ≤ (k + 1) / 2 := by omega
          obtain ⟨hd, hnd⟩ := ih ((k + 1) / 2) (by omega) hq1
          constructor
          · obtain ⟨c, hc⟩ := hd
            refine ⟨c, ?_⟩
            rw [pow_succ]
            calc k + 1 = 2 * ((k + 1) / 2) := hq
              _ = 2 * (2 ^ numTrailingZeros ((k + 1) / 2) * c) := by rw [← hc]
              _ = 2 ^ numTrailingZeros ((k + 1) / 2) * 2 * c := by ring
          · rintro ⟨c, hc⟩
            apply hnd
            refine ⟨c, ?_⟩
            set t := numTrailingZeros ((k + 1) / 2) with ht
            have hpow : (2 : ℕ) ^ (t + 1 + 1) = 2 * 2 ^ (t + 1) := by
              rw [pow_succ]
              ring
            have h2 : 2 * ((k + 1) / 2) = 2 * (2 ^ (t + 1) * c) := by
              rw [← hq, hc, hpow]
              ring
            exact Nat.eq_of_mul_eq_mul_left (by norm_num) h2

/-- C3: in the circuit assembled by `_dec_ucg` for `k >= 1` controls
(`2^k` leaves), the loop emits `2 * 2^k - 1` instructions — so nothing
follows the last leaf; the instruction at position `2*i` is leaf `i` with
its absorbed Hadamard / `Rz(pi/2)` factors (leading `H` for the first
leaf, trailing `Rz(pi/2) . H` for the last, both for interior leaves), and
for `i <= 2^k - 2` the instruction at position `2*i + 1` is a CNOT whose
control index is the number of trailing zero bits of `i + 1`. -/
theorem claim_C3 (k : ℕ) (s : List CMat2) (hk : 1 ≤ k) (hlen : s.length = 2 ^ k) :
    (dec_ucg_loop s).length = 2 * 2 ^ k - 1 ∧
    (∀ i, i < 2 ^ k →
      (dec_ucg_loop s)[2 * i]? =
        some (Instr.squ (absorbLeaf (2 ^ k) i (s.getD i 0)))) ∧
    (∀ i, i + 1 < 2 ^ k →
      (dec_ucg_loop s)[2 * i + 1]? = some (Instr.cx (numTrailingZeros (i + 1)))) ∧
    (∀ m, 1 ≤ m → 2 ^ numTrailingZeros m ∣ m ∧ ¬ 2 ^ (numTrailingZeros m + 1) ∣ m) ∧
    (∀ g, absorbLeaf (2 ^ k) 0 g = hM * g) ∧
    (∀ g, absorbLeaf (2 ^ k) (2 ^ k - 1) g = g * rzM (Real.pi / 2) * hM) ∧
    (∀ i g, 0 < i → i < 2 ^ k - 1 →
      absorbLeaf (2 ^ k) i g = hM * (g * rzM (Real.pi / 2)) * hM) := by
  have h2 : 2 ≤ 2 ^ k := by
    calc 2 = 2 ^ 1 := by norm_num
      _ ≤ 2 ^ k := Nat.pow_le_pow_right (by norm_num) hk
  have hloop : dec_ucg_loop s = loopGo s (2 ^ k) (2 ^ k) 0 := by
    unfold dec_ucg_loop
    rw [hlen]
  refine ⟨?_, ?_, ?_, fun m hm => numTrailingZeros_spec m hm, ?_, ?_, ?_⟩
  · rw [hloop]
    rw [loopGo_length s (2 ^ k) (2 ^ k) 0 (by omega) (by omega)]
  · intro i hi
    rw [hloop]
    have := loopGo_get_squ s (2 ^ k) (2 ^ k) 0 i (by omega) hi
    simpa using this
  · intro i hi
    rw [hloop]
    have := loopGo_get_cx s (2 ^ k) (2 ^ k) 0 i (by omega) (by omega)
    simpa using this
  · intro g
    simp [absorbLeaf]
  · intro g
    have hne : ¬ (2 ^ k - 1 = 0) := by omega
    rw [absorbLeaf, if_neg hne, if_pos rfl]
  · intro i g hi0 hilast
    rw [absorbLeaf, if_neg (by omega), if_neg (by omega)]

/-- C3 witness: the `k = 1` instance with two identity leaves: three-long
instruction list `[H . g0, CX(control 0), g1 . Rz(pi/2) . H]`. -/
theorem claim_C3_witness :
    (dec_ucg_loop [(1 : CMat2), 1]).length = 2 * 2 ^ 1 - 1 ∧
      (dec_ucg_loop [(1 : CMat2), 1])[2 * 0 + 1]? =
        some (Instr.cx (numTrailingZeros (0 + 1))) ∧
      (dec_ucg_loop [(1 : CMat2), 1])[2 * 0]? =
        some (Instr.squ (absorbLeaf (2 ^ 1) 0 (([(1 : CMat2), 1]).getD 0 0))) :=
  ⟨(claim_C3 1 [1, 1] (by norm_num) (by simp)).1,
   (claim_C3 1 [1, 1] (by norm_num) (by simp)).2.2.1 0 (by norm_num),
   (claim_C3 1 [1, 1] (by norm_num) (by simp)).2.1 0 (by norm_num)⟩

end QiskitUCG

namespace QiskitUCG

namespace CMat2

/-- Conjugate-transpose is an involution. -/
theorem ct_ct (m : CMat2) : ct (ct m) = m := by
  simp [ct]

/-- Conjugate-transpose of the identity. -/
theorem ct_one : ct (1 : CMat2) = 1 := by
  simp only [ct, one_def]
  ext <;> simp

/-- Conjugate-transpose reverses products. -/
theorem ct_mul (x y : CMat2) : ct (x * y) = ct y * ct x := by
  simp only [ct, mul_def]
  ext <;> simp [map_add, map_mul] <;> ring

/-- Determinant is multiplicative. -/
theorem det_mul (x y : CMat2) : det (x * y) = det x * det y := by
  simp only [det, mul_def]
  ring

/-- Determinant of the conjugate transpose. -/
theorem det_ct (m : CMat2) : det (ct m) = (starRingEnd ℂ) (det m) := by
  simp only [det, ct, map_sub, map_mul]
  ring

/-- Determinant of the identity. -/
theorem det_one : det (1 : CMat2) = 1 := by
  simp [det, one_def]

/-- A 2x2 matrix with non-zero determinant times its explicit inverse. -/
theorem mul_invM (m : CMat2) (h : det m ≠ 0) : m * invM m = 1 ∧ invM m * m = 1 := by
  unfold det at h
  constructor <;>
    · simp only [invM, mul_def, one_def, det]
      ext <;> (simp only []; field_simp; ring)

/-- A unitary has unit-modulus determinant (stated multiplicatively). -/
theorem unitary_detSq (m : CMat2) (h : unitary m) :
    (starRingEnd ℂ) (det m) * det m = 1 := by
  have hd := congrArg det h
  rw [det_mul, det_ct, det_one] at hd
  exact hd

/-- A unitary has non-zero determinant. -/
theorem unitary_det_ne (m : CMat2) (h : unitary m) : det m ≠ 0 := by
  intro h0
  have := unitary_detSq m h
  rw [h0] at this
  simp at this

/-- For a unitary, the conjugate transpose is the explicit inverse. -/
theorem unitary_ct_eq_invM (m : CMat2) (h : unitary m) : ct m = invM m := by
  have hd := unitary_det_ne m h
  have hinv := mul_invM m hd
  calc ct m = ct m * 1 := (mul_one _).symm
    _ = ct m * (m * invM m) := by rw [hinv.1]
    _ = (ct m * m) * invM m := (mul_assoc _ _ _).symm
    _ = 1 * invM m := by rw [h]
    _ = invM m := one_mul _

/-- A left-unitary is also right-unitary: `M M† = 1`. -/
theorem unitary_right (m : CMat2) (h : unitary m) : m * ct m = 1 := by
  rw [unitary_ct_eq_invM m h]
  exact (mul_invM m (unitary_det_ne m h)).1

/-- The conjugate transpose of a unitary is unitary. -/
theorem unitary_ct (m : CMat2) (h : unitary m) : unitary (ct m) := by
  unfold unitary
  rw [ct_ct]
  exact unitary_right m h

/-- Products of unitaries are unitary. -/
theorem unitary_mul (x y : CMat2) (hx : unitary x) (hy : unitary y) :
    unitary (x * y) := by
  unfold unitary
  rw [ct_mul]
  calc ct y * ct x * (x * y) = ct y * (ct x * x) * y := by
        rw [mul_assoc, mul_assoc, mul_assoc]
    _ = ct y * 1 * y := by rw [hx]
    _ = ct y * y := by rw [mul_one]
    _ = 1 := hy

/-- The identity is unitary. -/
theorem unitary_one : unitary (1 : CMat2) := by
  unfold unitary
  rw [ct_one, one_mul]

/-- Entry relation of a 2x2 unitary: `m.d = det m * conj m.a`. -/
theorem unitary_entry_d (m : CMat2) (h : unitary m) :
    m.d = det m * (starRingEnd ℂ) m.a := by
  have hd := unitary_det_ne m h
  have := congrArg CMat2.a (unitary_ct_eq_invM m h)
  simp only [ct, invM] at this
  field_simp at this
  rw [← this]
  ring

end CMat2

end QiskitUCG

namespace QiskitUCG

open CMat2 Complex

/-- Helper: `exp(i pi / 2) = i`. -/
theorem cexp_pi_div_two : Complex.exp ((Real.pi : ℂ) * Complex.I / 2) = Complex.I := by
  have h1 : (Real.pi : ℂ) * Complex.I / 2 = ((Real.pi / 2 : ℝ) : ℂ) * Complex.I := by
    push_cast
    ring
  rw [h1, Complex.exp_mul_I, ← Complex.ofReal_cos, ← Complex.ofReal_sin,
    Real.cos_pi_div_two, Real.sin_pi_div_two]
  simp

/-- Helper: a phase `exp(i t / 2)` for real `t` has unit modulus (stated
multiplicatively, as needed for unitarity of the embedded `r`). -/
theorem conj_exp_half_mul (t : ℝ) :
    (starRingEnd ℂ) (Complex.exp (Complex.I / 2 * (t : ℂ))) *
      Complex.exp (Complex.I / 2 * (t : ℂ)) = 1 := by
  rw [← Complex.exp_conj, ← Complex.exp_add]
  have h : (starRingEnd ℂ) (Complex.I / 2 * (t : ℂ)) + Complex.I / 2 * (t : ℂ) = 0 := by
    simp only [map_mul, map_div₀, Complex.conj_I, Complex.conj_ofReal, map_ofNat]
    ring
  rw [h, Complex.exp_zero]

/-- Helper: product of two diagonal matrices. -/
theorem diag_mul (a b c d : ℂ) : diagM a b * diagM c d = diagM (a * c) (b * d) := by
  simp only [diagM, mul_def]
  ext <;> ring

/-- Helper: conjugate transpose of a diagonal matrix. -/
theorem ct_diag (a b : ℂ) :
    ct (diagM a b) = diagM ((starRingEnd ℂ) a) ((starRingEnd ℂ) b) := by
  simp [ct, diagM]

/-- Helper: a diagonal matrix with unit-modulus entries is unitary. -/
theorem diag_unitary (a b : ℂ) (ha : (starRingEnd ℂ) a * a = 1)
    (hb : (starRingEnd ℂ) b * b = 1) : CMat2.unitary (diagM a b) := by
  unfold CMat2.unitary
  rw [ct_diag, diag_mul, ha, hb]
  rfl

/-- Helper: the embedded `r = diag(r1, r2)` is unitary. -/
theorem dmx_r_unitary (A B : CMat2) : CMat2.unitary (dmx_r A B) := by
  unfold dmx_r dmx_r1 dmx_r2
  exact diag_unitary _ _ (conj_exp_half_mul _) (conj_exp_half_mul _)

/-- Helper: `x = a . b^dagger` is unitary for unitary inputs. -/
theorem dmx_x_unitary (A B : CMat2) (ha : CMat2.unitary A) (hb : CMat2.unitary B) :
    CMat2.unitary (dmx_x A B) :=
  unitary_mul A (ct B) ha (unitary_ct B hb)

/-- Helper: `r x r` is unitary for unitary inputs. -/
theorem dmx_rxr_unitary (A B : CMat2) (ha : CMat2.unitary A) (hb : CMat2.unitary B) :
    CMat2.unitary (dmx_rxr A B) :=
  unitary_mul _ _ (unitary_mul _ _ (dmx_r_unitary A B) (dmx_x_unitary A B ha hb))
    (dmx_r_unitary A B)

/-- Helper: the determinant of `x = a . b^dagger` lies on the unit circle:
`det x = exp(i phi)` with `phi = arg (det x)`. -/
theorem dmx_detx_exp (A B : CMat2) (ha : CMat2.unitary A) (hb : CMat2.unitary B) :
    dmx_detx A B = Complex.exp ((dmx_phi A B : ℂ) * Complex.I) := by
  have hx := dmx_x_unitary A B ha hb
  have h1 : (starRingEnd ℂ) (det (dmx_x A B)) * det (dmx_x A B) = 1 :=
    unitary_detSq _ hx
  have habs : Complex.abs (dmx_detx A B) = 1 := by
    have h2 : Complex.normSq (dmx_detx A B) = 1 := by
      show Complex.normSq (det (dmx_x A B)) = 1
      rw [mul_comm] at h1
      rw [Complex.mul_conj] at h1
      exact_mod_cast h1
    have h3 := Complex.normSq_eq_abs (dmx_detx A B)
    rw [h2] at h3
    nlinarith [Complex.abs.nonneg (dmx_detx A B)]
  have := Complex.abs_mul_exp_arg_mul_I (dmx_detx A B)
  rw [habs] at this
  rw [Complex.ofReal_one, one_mul] at this
  exact this.symm

/-- Helper: the determinant of `x` is non-zero. -/
theorem dmx_detx_ne (A B : CMat2) (ha : CMat2.unitary A) (hb : CMat2.unitary B) :
    dmx_detx A B ≠ 0 := by
  rw [dmx_detx_exp A B ha hb]
  exact Complex.exp_ne_zero _

/-- Helper: `cmath.sqrt(det_x) = exp(i phi / 2)`. -/
theorem dmx_csqrt_detx (A B : CMat2) (ha : CMat2.unitary A) (hb : CMat2.unitary B) :
    csqrt (dmx_detx A B) = Complex.exp ((dmx_phi A B : ℂ) * Complex.I / 2) := by
  have hne := dmx_detx_ne A B ha hb
  have habs : Complex.abs (dmx_detx A B) = 1 := by
    rw [dmx_detx_exp A B ha hb]
    rw [Complex.abs_exp]
    simp
  unfold csqrt
  rw [if_neg hne]
  have hlog : Complex.log (dmx_detx A B) = (dmx_phi A B : ℂ) * Complex.I := by
    unfold Complex.log
    rw [habs, Real.log_one]
    unfold dmx_phi
    push_cast
    ring
  rw [hlog]

end QiskitUCG

namespace QiskitUCG

open CMat2 Complex

/-- Helper: entrywise form of `r . x . r` for diagonal `r`. -/
theorem dmx_rxr_entries (A B : CMat2) :
    dmx_rxr A B =
      ⟨dmx_r1 A B * (dmx_x A B).a * dmx_r1 A B,
       dmx_r1 A B * (dmx_x A B).b * dmx_r2 A B,
       dmx_r2 A B * (dmx_x A B).c * dmx_r1 A B,
       dmx_r2 A B * (dmx_x A B).d * dmx_r2 A B⟩ := by
  unfold dmx_rxr dmx_r
  simp only [diagM, mul_def]
  ext <;> ring

/-- Helper: determinant of the diagonal `r`. -/
theorem det_dmx_r (A B : CMat2) : det (dmx_r A B) = dmx_r1 A B * dmx_r2 A B := by
  simp [dmx_r, diagM, det]

/-- Helper: collapsing a five-fold product of exponentials. -/
theorem exp_prod5 (w1 w2 w3 : ℂ) :
    (Complex.exp w1 * Complex.exp w2) * Complex.exp w3 *
      (Complex.exp w1 * Complex.exp w2) = Complex.exp (w1 + w2 + w3 + w1 + w2) := by
  simp only [Complex.exp_add]
  ring

/-- Helper: collapsing `e * (c e e) * e` products of exponentials. -/
theorem exp_key3 (c w1 w2 w3 : ℂ) :
    Complex.exp w1 * (c * Complex.exp w2 * Complex.exp w3) * Complex.exp w1 =
      c * Complex.exp (w1 + w2 + w3 + w1) := by
  simp only [Complex.exp_add]
  ring

/-- Helper: collapsing `e * (c e e e) * e` products of exponentials. -/
theorem exp_key4 (c w1 w2 w3 w4 : ℂ) :
    Complex.exp w1 * (c * Complex.exp w2 * Complex.exp w3 * Complex.exp w4) *
        Complex.exp w1 =
      c * Complex.exp (w1 + w2 + w3 + w4 + w1) := by
  simp only [Complex.exp_add]
  ring

/-- Helper: the phase choice of the demultiplexer makes `det (r x r) = 1`. -/
theorem dmx_det_rxr (A B : CMat2) (ha : CMat2.unitary A) (hb : CMat2.unitary B) :
    det (dmx_rxr A B) = 1 := by
  unfold dmx_rxr
  rw [det_mul, det_mul, det_dmx_r]
  rw [show det (dmx_x A B) = dmx_detx A B from rfl]
  rw [dmx_detx_exp A B ha hb]
  unfold dmx_r1 dmx_r2
  rw [exp_prod5]
  have hE : Complex.I / 2 * ((Real.pi / 2 - dmx_phi A B / 2 - (dmx_x11 A B).arg : ℝ) : ℂ) +
        Complex.I / 2 *
          ((Real.pi / 2 - dmx_phi A B / 2 + (dmx_x11 A B).arg + Real.pi : ℝ) : ℂ) +
        (dmx_phi A B : ℂ) * Complex.I +
        Complex.I / 2 * ((Real.pi / 2 - dmx_phi A B / 2 - (dmx_x11 A B).arg : ℝ) : ℂ) +
        Complex.I / 2 *
          ((Real.pi / 2 - dmx_phi A B / 2 + (dmx_x11 A B).arg + Real.pi : ℝ) : ℂ) =
      2 * (Real.pi : ℂ) * Complex.I := by
    push_cast
    ring
  rw [hE, Complex.exp_two_pi_mul_I]

/-- Helper: the phase choice of the demultiplexer makes `trace (r x r) = 0`
(so that, with the determinant, the eigenvalues are `i` and `-i`). -/
theorem dmx_trace_rxr (A B : CMat2) (ha : CMat2.unitary A) (hb : CMat2.unitary B) :
    trace (dmx_rxr A B) = 0 := by
  have hx := dmx_x_unitary A B ha hb
  have htr : trace (dmx_rxr A B) =
      dmx_r1 A B * (dmx_x A B).a * dmx_r1 A B +
        dmx_r2 A B * (dmx_x A B).d * dmx_r2 A B := by
    rw [dmx_rxr_entries]
    rfl
  rw [htr]
  have hd := unitary_entry_d (dmx_x A B) hx
  by_cases hxa : (dmx_x A B).a = 0
  · rw [hd, hxa]
    simp
  · have hs := dmx_csqrt_detx A B ha hb
    have hsne : csqrt (dmx_detx A B) ≠ 0 := by
      rw [hs]
      exact Complex.exp_ne_zero _
    have hx11ne : dmx_x11 A B ≠ 0 := div_ne_zero hxa hsne
    have habs11 : dmx_x11 A B =
        ((Complex.abs (dmx_x11 A B) : ℝ) : ℂ) *
          Complex.exp (((dmx_x11 A B).arg : ℂ) * Complex.I) :=
      (Complex.abs_mul_exp_arg_mul_I _).symm
    have hxa_eq : (dmx_x A B).a =
        ((Complex.abs (dmx_x11 A B) : ℝ) : ℂ) *
            Complex.exp (((dmx_x11 A B).arg : ℂ) * Complex.I) *
          Complex.exp ((dmx_phi A B : ℂ) * Complex.I / 2) := by
      have h1 : (dmx_x A B).a = dmx_x11 A B * csqrt (dmx_detx A B) := by
        rw [show dmx_x11 A B = (dmx_x A B).a / csqrt (dmx_detx A B) from rfl]
        field_simp
      rw [h1, hs]
      nth_rewrite 1 [habs11]
      ring
    have hconj_xa : (starRingEnd ℂ) (dmx_x A B).a =
        ((Complex.abs (dmx_x11 A B) : ℝ) : ℂ) *
            Complex.exp (-(((dmx_x11 A B).arg : ℂ) * Complex.I)) *
          Complex.exp (-((dmx_phi A B : ℂ) * Complex.I / 2)) := by
      rw [hxa_eq]
      simp only [map_mul, ← Complex.exp_conj, map_div₀, Complex.conj_I,
        Complex.conj_ofReal, map_ofNat]
      ring_nf
    have hxd : (dmx_x A B).d =
        ((Complex.abs (dmx_x11 A B) : ℝ) : ℂ) *
            Complex.exp ((dmx_phi A B : ℂ) * Complex.I) *
            Complex.exp (-(((dmx_x11 A B).arg : ℂ) * Complex.I)) *
          Complex.exp (-((dmx_phi A B : ℂ) * Complex.I / 2)) := by
      rw [hd, show det (dmx_x A B) = dmx_detx A B from rfl, dmx_detx_exp A B ha hb,
        hconj_xa]
      ring
    unfold dmx_r1 dmx_r2
    rw [hxa_eq, hxd, exp_key3, exp_key4]
    have hE1 : Complex.I / 2 *
            ((Real.pi / 2 - dmx_phi A B / 2 - (dmx_x11 A B).arg : ℝ) : ℂ) +
          ((dmx_x11 A B).arg : ℂ) * Complex.I + (dmx_phi A B : ℂ) * Complex.I / 2 +
          Complex.I / 2 *
            ((Real.pi / 2 - dmx_phi A B / 2 - (dmx_x11 A B).arg : ℝ) : ℂ) =
        (Real.pi : ℂ) * Complex.I / 2 := by
      push_cast
      ring
    have hE2 : Complex.I / 2 *
            ((Real.pi / 2 - dmx_phi A B / 2 + (dmx_x11 A B).arg + Real.pi : ℝ) : ℂ) +
          (dmx_phi A B : ℂ) * Complex.I + -(((dmx_x11 A B).arg : ℂ) * Complex.I) +
          -((dmx_phi A B : ℂ) * Complex.I / 2) +
          Complex.I / 2 *
            ((Real.pi / 2 - dmx_phi A B / 2 + (dmx_x11 A B).arg + Real.pi : ℝ) : ℂ) =
        (Real.pi : ℂ) * Complex.I + (Real.pi : ℂ) * Complex.I / 2 := by
      push_cast
      ring
    rw [hE1, hE2, Complex.exp_add, Complex.exp_pi_mul_I, cexp_pi_div_two]
    ring

end QiskitUCG

namespace QiskitUCG

open CMat2 Complex

/-- Helper: the eigensolver contract (root of the characteristic
polynomial) forces the eigenvalue pair of `r x r` to be `{i, -i}`. -/
theorem dmx_eigvals (A B : CMat2) (ha : CMat2.unitary A) (hb : CMat2.unitary B)
    (d0 d1 : ℂ) (hsum : d0 + d1 = trace (dmx_rxr A B))
    (hprod : d0 * d1 = det (dmx_rxr A B)) :
    (d0 = Complex.I ∧ d1 = -Complex.I) ∨ (d0 = -Complex.I ∧ d1 = Complex.I) := by
  rw [dmx_trace_rxr A B ha hb] at hsum
  rw [dmx_det_rxr A B ha hb] at hprod
  have h1 : d1 = -d0 := by linear_combination hsum
  rw [h1] at hprod
  have h2 : (d0 - Complex.I) * (d0 + Complex.I) = 0 := by
    linear_combination (-1 : ℂ) * hprod - Complex.I_sq
  rcases mul_eq_zero.mp h2 with h | h
  · have hd0 : d0 = Complex.I := by linear_combination h
    exact Or.inl ⟨hd0, by rw [h1, hd0]⟩
  · have hd0 : d0 = -Complex.I := by linear_combination h
    exact Or.inr ⟨hd0, by rw [h1, hd0, neg_neg]⟩

/-- Helper: outcome of the normalization step when the eigensolver returns
`(i, -i)`: no flip is performed (`|i + i| = 2` is not below `_EPS`). -/
theorem dmx_flip_keep (u : CMat2) :
    dmx_flip Complex.I (-Complex.I) u = (Complex.I, -Complex.I, u) := by
  unfold dmx_flip
  rw [if_neg]
  rw [show Complex.I + Complex.I = 2 * Complex.I from by ring]
  rw [map_mul, Complex.abs_two, Complex.abs_I, mul_one]
  rw [EPSr]
  norm_num

/-- Helper: outcome of the normalization step when the eigensolver returns
`(-i, i)`: both the eigenvalues and the eigenvector columns are flipped. -/
theorem dmx_flip_swap (u : CMat2) :
    dmx_flip (-Complex.I) Complex.I u = (Complex.I, -Complex.I, ⟨u.b, u.a, u.d, u.c⟩) := by
  unfold dmx_flip
  rw [if_pos]
  rw [show -Complex.I + Complex.I = 0 from by ring]
  rw [map_zero, EPSr]
  norm_num

/-- Helper: columns of `u` in `X u = u diag(d0, d1)` are eigenvectors. -/
theorem eig_cols (X u : CMat2) (d0 d1 : ℂ) (h : X * u = u * diagM d0 d1) :
    (X.a * u.a + X.b * u.c = d0 * u.a) ∧ (X.c * u.a + X.d * u.c = d0 * u.c) ∧
      (X.a * u.b + X.b * u.d = d1 * u.b) ∧ (X.c * u.b + X.d * u.d = d1 * u.d) := by
  have h1 := congrArg CMat2.a h
  have h2 := congrArg CMat2.b h
  have h3 := congrArg CMat2.c h
  have h4 := congrArg CMat2.d h
  simp only [mul_def, diagM] at h1 h2 h3 h4
  exact ⟨by linear_combination h1, by linear_combination h3,
    by linear_combination h2, by linear_combination h4⟩

/-- Helper: eigenvectors of a unitary for the distinct eigenvalues `i` and
`-i` are orthogonal. -/
theorem eig_orth (X w : CMat2) (hXu : CMat2.unitary X)
    (h0a : X.a * w.a + X.b * w.c = Complex.I * w.a)
    (h0c : X.c * w.a + X.d * w.c = Complex.I * w.c)
    (h1b : X.a * w.b + X.b * w.d = -Complex.I * w.b)
    (h1d : X.c * w.b + X.d * w.d = -Complex.I * w.d) :
    (starRingEnd ℂ) w.a * w.b + (starRingEnd ℂ) w.c * w.d = 0 := by
  have hU1 := congrArg CMat2.a hXu
  have hU2 := congrArg CMat2.b hXu
  have hU3 := congrArg CMat2.c hXu
  have hU4 := congrArg CMat2.d hXu
  simp only [ct, mul_def, one_def] at hU1 hU2 hU3 hU4
  have hc0a := congrArg (starRingEnd ℂ) h0a
  have hc0c := congrArg (starRingEnd ℂ) h0c
  simp only [map_add, map_mul, Complex.conj_I] at hc0a hc0c
  have expand : (starRingEnd ℂ) w.a * w.b + (starRingEnd ℂ) w.c * w.d =
      ((starRingEnd ℂ) X.a * (starRingEnd ℂ) w.a +
          (starRingEnd ℂ) X.b * (starRingEnd ℂ) w.c) * (X.a * w.b + X.b * w.d) +
        ((starRingEnd ℂ) X.c * (starRingEnd ℂ) w.a +
          (starRingEnd ℂ) X.d * (starRingEnd ℂ) w.c) * (X.c * w.b + X.d * w.d) := by
    linear_combination (-((starRingEnd ℂ) w.a * w.b)) * hU1 +
      (-((starRingEnd ℂ) w.a * w.d)) * hU2 + (-((starRingEnd ℂ) w.c * w.b)) * hU3 +
      (-((starRingEnd ℂ) w.c * w.d)) * hU4
  rw [h1b, h1d, hc0a, hc0c] at expand
  linear_combination ((1 : ℂ) / 2) * expand +
    (((1 : ℂ) / 2) * ((starRingEnd ℂ) w.a * w.b + (starRingEnd ℂ) w.c * w.d)) *
      Complex.I_sq

/-- Helper: unit-norm orthogonal columns make a 2x2 matrix unitary. -/
theorem unitary_of_cols (w : CMat2)
    (hn0 : (starRingEnd ℂ) w.a * w.a + (starRingEnd ℂ) w.c * w.c = 1)
    (hn1 : (starRingEnd ℂ) w.b * w.b + (starRingEnd ℂ) w.d * w.d = 1)
    (hor : (starRingEnd ℂ) w.a * w.b + (starRingEnd ℂ) w.c * w.d = 0) :
    CMat2.unitary w := by
  have hor' := congrArg (starRingEnd ℂ) hor
  simp only [map_add, map_mul, Complex.conj_conj, map_zero] at hor'
  unfold CMat2.unitary
  simp only [ct, mul_def, one_def]
  ext
  · exact hn0
  · exact hor
  · linear_combination hor'
  · exact hn1

/-- Helper: `cmath.sqrt` squares back to its argument away from zero. -/
theorem csqrt_mul_self (z : ℂ) (hz : z ≠ 0) : csqrt z * csqrt z = z := by
  unfold csqrt
  rw [if_neg hz, ← Complex.exp_add]
  rw [show Complex.log z / 2 + Complex.log z / 2 = Complex.log z from by ring]
  exact Complex.exp_log hz

/-- Helper: `cmath.sqrt` of a unit-circle value has unit modulus. -/
theorem csqrt_unit (z : ℂ) (hz : Complex.abs z = 1) :
    (starRingEnd ℂ) (csqrt z) * csqrt z = 1 := by
  have hne : z ≠ 0 := by
    intro h
    rw [h] at hz
    simp at hz
  unfold csqrt
  rw [if_neg hne, ← Complex.exp_conj, ← Complex.exp_add]
  have hre : (Complex.log z).re = 0 := by
    rw [Complex.log_re, hz, Real.log_one]
  have hadd := Complex.add_conj (Complex.log z)
  rw [hre] at hadd
  have h0 : (starRingEnd ℂ) (Complex.log z / 2) + Complex.log z / 2 = 0 := by
    simp only [map_div₀, map_ofNat]
    push_cast at hadd
    linear_combination hadd / 2
  rw [h0, Complex.exp_zero]

/-- Helper: the square-root eigenvalue matrix `diag(sqrt i, sqrt (-i))` is
unitary. -/
theorem sqrtD_unitary : CMat2.unitary (dmx_sqrtD Complex.I (-Complex.I)) := by
  unfold dmx_sqrtD
  refine diag_unitary _ _ (csqrt_unit _ ?_) (csqrt_unit _ ?_)
  · exact Complex.abs_I
  · rw [map_neg_eq_map]
    exact Complex.abs_I

/-- Helper: the square-root eigenvalue matrix squares to `diag(i, -i)`. -/
theorem sqrtD_sq :
    dmx_sqrtD Complex.I (-Complex.I) * dmx_sqrtD Complex.I (-Complex.I) =
      diagM Complex.I (-Complex.I) := by
  unfold dmx_sqrtD
  rw [diag_mul, csqrt_mul_self _ Complex.I_ne_zero,
    csqrt_mul_self _ (neg_ne_zero.mpr Complex.I_ne_zero)]

/-- Helper: cancellation inside right-associated products. -/
theorem mul_cancel_assoc (x y w : CMat2) (h : x * y = 1) : x * (y * w) = w := by
  rw [← mul_assoc, h, one_mul]

end QiskitUCG


namespace QiskitUCG

open CMat2 Complex

/-- C2: for unitary 2x2 inputs `(a, b)`, with the external eigensolver
modelled by its contract — `r x r . u = u . diag(d0, d1)`, unit-norm
eigenvector columns, and `(d0, d1)` the roots of the characteristic
polynomial — the demultiplexer outputs `(v, u, r)` are unitary; the
normalization step always yields the eigenvalue pair `(i, -i)` (flipping
both eigenvalues and eigenvector columns exactly when the solver returned
`(-i, i)`); conjugating `a b^dagger` by `r` diagonalizes as
`u . diag(i,-i) . u^dagger`; `v = sqrt(diag(i,-i)) . u^dagger . r^dagger . b`;
and `a` and `b` are reconstructed exactly from `(v, u, r)`. -/
theorem claim_C2 (A B : CMat2) (ha : CMat2.unitary A) (hb : CMat2.unitary B)
    (d0 d1 : ℂ) (u : CMat2)
    (heig : dmx_rxr A B * u = u * diagM d0 d1)
    (hn0 : (starRingEnd ℂ) u.a * u.a + (starRingEnd ℂ) u.c * u.c = 1)
    (hn1 : (starRingEnd ℂ) u.b * u.b + (starRingEnd ℂ) u.d * u.d = 1)
    (hsum : d0 + d1 = trace (dmx_rxr A B))
    (hprod : d0 * d1 = det (dmx_rxr A B)) :
    (dmx_flip d0 d1 u).1 = Complex.I ∧
    (dmx_flip d0 d1 u).2.1 = -Complex.I ∧
    CMat2.unitary (dmx_r A B) ∧
    CMat2.unitary (dmx_flip d0 d1 u).2.2 ∧
    CMat2.unitary (dmx_v A B d0 d1 u) ∧
    dmx_rxr A B =
      (dmx_flip d0 d1 u).2.2 * diagM Complex.I (-Complex.I) *
        ct (dmx_flip d0 d1 u).2.2 ∧
    dmx_v A B d0 d1 u =
      dmx_sqrtD Complex.I (-Complex.I) * ct (dmx_flip d0 d1 u).2.2 *
        ct (dmx_r A B) * B ∧
    A = ct (dmx_r A B) * (dmx_flip d0 d1 u).2.2 *
        dmx_sqrtD Complex.I (-Complex.I) * dmx_v A B d0 d1 u ∧
    B = dmx_r A B * (dmx_flip d0 d1 u).2.2 *
        ct (dmx_sqrtD Complex.I (-Complex.I)) * dmx_v A B d0 d1 u := by
  have hr := dmx_r_unitary A B
  have hr2 : ct (dmx_r A B) * dmx_r A B = 1 := hr
  have hrr : dmx_r A B * ct (dmx_r A B) = 1 := unitary_right _ hr
  have hb2 : ct B * B = 1 := hb
  have hXunit := dmx_rxr_unitary A B ha hb
  obtain ⟨w, hflip, heig', hn0', hn1'⟩ :
      ∃ w, dmx_flip d0 d1 u = (Complex.I, -Complex.I, w) ∧
        dmx_rxr A B * w = w * diagM Complex.I (-Complex.I) ∧
        (starRingEnd ℂ) w.a * w.a + (starRingEnd ℂ) w.c * w.c = 1 ∧
        (starRingEnd ℂ) w.b * w.b + (starRingEnd ℂ) w.d * w.d = 1 := by
    rcases dmx_eigvals A B ha hb d0 d1 hsum hprod with ⟨h0, h1⟩ | ⟨h0, h1⟩
    · subst h0
      subst h1
      exact ⟨u, dmx_flip_keep u, heig, hn0, hn1⟩
    · subst h0
      subst h1
      refine ⟨⟨u.b, u.a, u.d, u.c⟩, dmx_flip_swap u, ?_, hn1, hn0⟩
      have hcols := eig_cols _ u _ _ heig
      simp only [mul_def, diagM]
      ext
      · linear_combination hcols.2.2.1
      · linear_combination hcols.1
      · linear_combination hcols.2.2.2
      · linear_combination hcols.2.1
  have hcols' := eig_cols _ w _ _ heig'
  have hor := eig_orth (dmx_rxr A B) w hXunit hcols'.1 hcols'.2.1 hcols'.2.2.1
    hcols'.2.2.2
  have hwu : CMat2.unitary w := unitary_of_cols w hn0' hn1' hor
  have hwr : w * ct w = 1 := unitary_right _ hwu
  have hdiag : dmx_rxr A B = w * diagM Complex.I (-Complex.I) * ct w := by
    calc dmx_rxr A B = dmx_rxr A B * (w * ct w) := by rw [hwr, mul_one]
      _ = dmx_rxr A B * w * ct w := (mul_assoc _ _ _).symm
      _ = w * diagM Complex.I (-Complex.I) * ct w := by rw [heig']
  have hSu := sqrtD_unitary
  have hSu2 : ct (dmx_sqrtD Complex.I (-Complex.I)) * dmx_sqrtD Complex.I (-Complex.I) = 1 :=
    hSu
  have hv_eq : dmx_v A B d0 d1 u =
      dmx_sqrtD Complex.I (-Complex.I) * ct w * ct (dmx_r A B) * B := by
    unfold dmx_v
    rw [hflip]
  have hxr : ct (dmx_r A B) * dmx_rxr A B * ct (dmx_r A B) = dmx_x A B := by
    unfold dmx_rxr
    calc ct (dmx_r A B) * (dmx_r A B * dmx_x A B * dmx_r A B) * ct (dmx_r A B)
        = (ct (dmx_r A B) * dmx_r A B) * dmx_x A B * (dmx_r A B * ct (dmx_r A B)) := by
          simp only [mul_assoc]
      _ = 1 * dmx_x A B * 1 := by rw [hr2, hrr]
      _ = dmx_x A B := by rw [one_mul, mul_one]
  have hxB : dmx_x A B * B = A := by
    unfold dmx_x
    rw [mul_assoc, hb2, mul_one]
  have recon_a : ct (dmx_r A B) * w * dmx_sqrtD Complex.I (-Complex.I) *
      (dmx_sqrtD Complex.I (-Complex.I) * ct w * ct (dmx_r A B) * B) = A := by
    calc ct (dmx_r A B) * w * dmx_sqrtD Complex.I (-Complex.I) *
          (dmx_sqrtD Complex.I (-Complex.I) * ct w * ct (dmx_r A B) * B)
        = ct (dmx_r A B) *
            ((w * (dmx_sqrtD Complex.I (-Complex.I) * dmx_sqrtD Complex.I (-Complex.I)) *
              ct w) * (ct (dmx_r A B) * B)) := by
          simp only [mul_assoc]
      _ = ct (dmx_r A B) *
            ((w * diagM Complex.I (-Complex.I) * ct w) * (ct (dmx_r A B) * B)) := by
          rw [sqrtD_sq]
      _ = ct (dmx_r A B) * (dmx_rxr A B * (ct (dmx_r A B) * B)) := by rw [← hdiag]
      _ = (ct (dmx_r A B) * dmx_rxr A B * ct (dmx_r A B)) * B := by
          simp only [mul_assoc]
      _ = dmx_x A B * B := by rw [hxr]
      _ = A := hxB
  have recon_b : dmx_r A B * w * ct (dmx_sqrtD Complex.I (-Complex.I)) *
      (dmx_sqrtD Complex.I (-Complex.I) * ct w * ct (dmx_r A B) * B) = B := by
    simp only [mul_assoc]
    rw [mul_cancel_assoc _ _ _ hSu2, mul_cancel_assoc _ _ _ hwr,
      mul_cancel_assoc _ _ _ hrr]
  refine ⟨by rw [hflip], by rw [hflip], hr, ?_, ?_, ?_, ?_, ?_, ?_⟩
  · rw [hflip]
    exact hwu
  · rw [hv_eq]
    exact unitary_mul _ _
      (unitary_mul _ _ (unitary_mul _ _ hSu (unitary_ct _ hwu)) (unitary_ct _ hr)) hb
  · rw [hflip]
    exact hdiag
  · rw [hflip]
    exact hv_eq
  · rw [hflip, hv_eq]
    exact recon_a.symm
  · rw [hflip, hv_eq]
    exact recon_b.symm

end QiskitUCG

namespace QiskitUCG

open CMat2 Complex

/-- Helper: at `a = b = 1` the demultiplexer conjugation gives exactly
`diag(i, -i)` (so `u = 1`, `d = (i, -i)` satisfies the eigensolver
contract). -/
theorem dmx_rxr_one : dmx_rxr (1 : CMat2) 1 = diagM Complex.I (-Complex.I) := by
  have hx : dmx_x (1 : CMat2) 1 = 1 := by
    unfold dmx_x
    rw [ct_one, mul_one]
  have hdet : dmx_detx (1 : CMat2) 1 = 1 := by
    unfold dmx_detx
    rw [hx, det_one]
  have hphi : dmx_phi (1 : CMat2) 1 = 0 := by
    unfold dmx_phi
    rw [hdet]
    exact Complex.arg_one
  have hx11 : dmx_x11 (1 : CMat2) 1 = 1 := by
    unfold dmx_x11
    rw [hx, hdet]
    unfold csqrt
    rw [if_neg one_ne_zero, Complex.log_one, zero_div, Complex.exp_zero, div_one]
    rfl
  have hr1 : dmx_r1 (1 : CMat2) 1 * dmx_r1 (1 : CMat2) 1 = Complex.I := by
    unfold dmx_r1
    rw [hphi, hx11, Complex.arg_one, ← Complex.exp_add]
    have hE : Complex.I / 2 * ((Real.pi / 2 - 0 / 2 - 0 : ℝ) : ℂ) +
        Complex.I / 2 * ((Real.pi / 2 - 0 / 2 - 0 : ℝ) : ℂ) =
        (Real.pi : ℂ) * Complex.I / 2 := by
      push_cast
      ring
    rw [hE, cexp_pi_div_two]
  have hr2 : dmx_r2 (1 : CMat2) 1 * dmx_r2 (1 : CMat2) 1 = -Complex.I := by
    unfold dmx_r2
    rw [hphi, hx11, Complex.arg_one, ← Complex.exp_add]
    have hE : Complex.I / 2 * ((Real.pi / 2 - 0 / 2 + 0 + Real.pi : ℝ) : ℂ) +
        Complex.I / 2 * ((Real.pi / 2 - 0 / 2 + 0 + Real.pi : ℝ) : ℂ) =
        (Real.pi : ℂ) * Complex.I + (Real.pi : ℂ) * Complex.I / 2 := by
      push_cast
      ring
    rw [hE, Complex.exp_add, Complex.exp_pi_mul_I, cexp_pi_div_two]
    ring
  unfold dmx_rxr
  rw [hx, mul_one]
  unfold dmx_r
  rw [diag_mul, hr1, hr2]

/-- C2 witness: the theorem at the concrete input `a = b = 1` with the
concrete eigendecomposition `u = 1`, `d = (i, -i)` of
`r x r = diag(i, -i)`. -/
theorem claim_C2_witness :
    (dmx_flip Complex.I (-Complex.I) (1 : CMat2)).1 = Complex.I ∧
      CMat2.unitary (dmx_r (1 : CMat2) 1) ∧
      CMat2.unitary (dmx_v (1 : CMat2) 1 Complex.I (-Complex.I) 1) ∧
      (1 : CMat2) = ct (dmx_r (1 : CMat2) 1) *
        (dmx_flip Complex.I (-Complex.I) (1 : CMat2)).2.2 *
        dmx_sqrtD Complex.I (-Complex.I) *
        dmx_v (1 : CMat2) 1 Complex.I (-Complex.I) 1 := by
  have h := claim_C2 1 1 unitary_one unitary_one Complex.I (-Complex.I) 1
    (by rw [dmx_rxr_one, mul_one, one_mul])
    (by simp [one_def])
    (by simp [one_def])
    (by rw [dmx_rxr_one]; simp [trace, diagM])
    (by rw [dmx_rxr_one]; simp [det, diagM])
  exact ⟨h.1, h.2.2.1, h.2.2.2.2.1, h.2.2.2.2.2.2.2.1⟩

end QiskitUCG
